import Mathlib

/-
Verification development for the Data Manager reconciliation core
(src/datamanager8.8.py).  The Python functions relevant to the frozen
claims are shallowly embedded below: pure functions become Lean
functions, the stateful scanning loops become explicit folds carrying
their state, and fallible paths return Except/Option.  Raw spreadsheet
cell values are modelled by the inductive type Raw covering the value
kinds the program actually meets (None, strings, integers, dates).
-/

/-! ## Python string primitives -/

/-- Non-breaking space character, Python `'\xa0'`. -/
def nbsp : Char := Char.ofNat 160

/-- Model of Python `str.isspace` for the whitespace characters relevant to
this program: space, tab, newline, carriage return, vertical tab, form feed
and the non-breaking space.  `str.strip()` strips exactly these. -/
def pyIsSpace (c : Char) : Bool :=
  c.toNat = 32 || c.toNat = 9 || c.toNat = 10 || c.toNat = 13 ||
  c.toNat = 11 || c.toNat = 12 || c.toNat = 160

/-- Strip whitespace from both ends of a character list, Python `str.strip()`. -/
def stripList (l : List Char) : List Char :=
  ((l.dropWhile pyIsSpace).reverse.dropWhile pyIsSpace).reverse

/-- Python `s.strip()`. -/
def pyStrip (s : String) : String := String.mk (stripList s.data)

/-- Python `s.replace(a, b)` for single characters `a`, `b`. -/
def replaceChar (a b : Char) (s : String) : String :=
  String.mk (s.data.map (fun c => if c = a then b else c))

/-- ASCII lower-casing of one character, the fragment of Python `str.lower`
exercised by the program's data. -/
def charLower (c : Char) : Char :=
  if 65 ≤ c.toNat ∧ c.toNat ≤ 90 then Char.ofNat (c.toNat + 32) else c

/-- Python `s.lower()` (ASCII fragment). -/
def toLowerStr (s : String) : String := String.mk (s.data.map charLower)

/-- Python `needle in hay` substring test. -/
def pyContains (hay needle : String) : Bool :=
  (List.range (hay.data.length + 1)).any
    (fun i => needle.data.isPrefixOf (hay.data.drop i))

/-- Python `sep.join(parts)`. -/
def joinSep (sep : String) : List String → String
  | [] => ""
  | [x] => x
  | x :: y :: xs => x ++ sep ++ joinSep sep (y :: xs)

/-- Decimal digit character for `n < 10`. -/
def digitChar (n : Nat) : Char :=
  if n = 0 then '0' else if n = 1 then '1' else if n = 2 then '2'
  else if n = 3 then '3' else if n = 4 then '4' else if n = 5 then '5'
  else if n = 6 then '6' else if n = 7 then '7' else if n = 8 then '8' else '9'

/-- Fuel-driven decimal digit expansion (structural recursion so that the
kernel can evaluate it). -/
def natDigitsAux : Nat → Nat → List Char
  | 0, _ => []
  | fuel + 1, n =>
    if n < 10 then [digitChar n]
    else natDigitsAux fuel (n / 10) ++ [digitChar (n % 10)]

/-- Decimal digits of a natural number, most significant first;
models Python `str` on a non-negative int. -/
def natDigitsL (n : Nat) : List Char := natDigitsAux (n + 1) n

/-- Python `str(n)` for a natural number. -/
def natStr (n : Nat) : String := String.mk (natDigitsL n)

/-- Python `str(n)` for an integer. -/
def intStr (n : Int) : String :=
  if n < 0 then "-" ++ natStr n.natAbs else natStr n.natAbs

/-- Left-pad a digit list with `'0'` up to width `k` (strftime zero padding). -/
def padDigits (k : Nat) (l : List Char) : List Char :=
  List.replicate (k - l.length) '0' ++ l

/-- Character list of `datetime.strftime('%Y-%m-%d')`. -/
def fmtDateL (y m d : Nat) : List Char :=
  padDigits 4 (natDigitsL y) ++ '-' :: (padDigits 2 (natDigitsL m) ++ '-' :: padDigits 2 (natDigitsL d))

/-- Python `val.strftime('%Y-%m-%d')`. -/
def fmtDate (y m d : Nat) : String := String.mk (fmtDateL y m d)

/-! ## Raw cell values -/

/-- Raw spreadsheet cell value as handed over by openpyxl: `None`, a string,
an integer, or a datetime (modelled by its date components). -/
inductive Raw where
  | none : Raw
  | str (s : String) : Raw
  | int (n : Int) : Raw
  | date (y m d : Nat) : Raw
deriving DecidableEq

/-- Python truthiness of a raw cell value, as used by `any(r)`:
`None`, `""` and `0` are falsy. -/
def Raw.truthy : Raw → Bool
  | .none => false
  | .str s => s ≠ ""
  | .int n => n ≠ 0
  | .date _ _ _ => true

/-- Python `str(v)` on a raw cell value (`str(datetime)` renders midnight). -/
def pyStr : Raw → String
  | .none => "None"
  | .str s => s
  | .int n => intStr n
  | .date y m d => fmtDate y m d ++ " 00:00:00"

/-- String transformation inside `clean_cell_value`:
`str(val).strip().replace('\xa0', ' ').replace('\n', ' ')` followed by the
spreadsheet error-sentinel check. -/
def pyCleanStr (s : String) : String :=
  let t := replaceChar '\n' ' ' (replaceChar nbsp ' ' (pyStrip s))
  if t = "#VALUE!" ∨ t = "#REF!" ∨ t = "#N/A" ∨ t = "#DIV/0!" then "" else t

/-- Embedding of `clean_cell_value` (datamanager8.8.py lines 122-130). -/
def clean_cell_value : Raw → String
  | .none => ""
  | .date y m d => fmtDate y m d
  | .str s => pyCleanStr s
  | .int n => pyCleanStr (intStr n)

/-! ## Header extraction -/

/-- Embedding of `extract_headers` (lines 141-164): per physical column of the
first `h` rows, join the truthy header fragments (trimmed, newlines collapsed)
with " - ", falling back to the positional `Column_<n>` name. -/
def extract_headers (cells : List (List Raw)) (h : Nat) : List String :=
  let raw := cells.take h
  match raw with
  | [] => []
  | r0 :: _ =>
    (List.range r0.length).map (fun c =>
      let parts := raw.filterMap (fun row =>
        match row.get? c with
        | some v => if Raw.truthy v then some (replaceChar '\n' ' ' (pyStrip (pyStr v))) else none
        | Option.none => none)
      if parts.isEmpty then "Column_" ++ natStr (c + 1) else joinSep " - " parts)

/-! ## Scanning pipeline (worker_process_files, standard and normal modes) -/

/-- One input workbook: file name plus the active sheet's cell grid. -/
structure XFile where
  name : String
  cells : List (List Raw)
deriving DecidableEq

/-- The cleaned data cells of one sheet row, one per header column
(`row_data` construction, lines 1111-1114): missing trailing cells read as
`None`. -/
def scanRowData (cols : List String) (r : List Raw) : List String :=
  (List.range cols.length).map (fun i => clean_cell_value (r.getD i Raw.none))

/-- Data-row collection of one file during the initial scan
(lines 1103-1124): skip raw rows with no truthy cell, clean the cells,
append the file name, and drop rows whose full tuple was already seen
in this file. -/
def fileRowsScanAux (cols : List String) (fname : String)
    (seen : List (List String)) : List (List Raw) → List (List String)
  | [] => []
  | r :: rs =>
    if r.any Raw.truthy = false then fileRowsScanAux cols fname seen rs
    else
      let rd := scanRowData cols r ++ [fname]
      if rd ∈ seen then fileRowsScanAux cols fname seen rs
      else rd :: fileRowsScanAux cols fname (rd :: seen) rs

/-- Rows contributed by one file during the scan: data rows start after the
`h` header rows. -/
def fileRowsScan (h : Nat) (cols : List String) (f : XFile) : List (List String) :=
  fileRowsScanAux cols f.name [] (f.cells.drop h)

/-- One structural bucket: header signature columns, accumulated rows and
contributing file names. -/
structure Bucket where
  cols : List String
  rows : List (List String)
  files : List String
deriving DecidableEq

/-- Header signature of a file during the scan, `none` when the file is
skipped (sheet shorter than the header-row count, or no headers). -/
def fileSig (h : Nat) (f : XFile) : Option (List String) :=
  if f.cells.length < h then none
  else
    let cs := extract_headers f.cells h
    if cs = [] then none else some cs

/-- Add one file's rows to the bucket of its signature, creating the bucket
if the signature is new (lines 1098-1126). -/
def addToBuckets (h : Nat) (bks : List (List String × Bucket))
    (sig : List String) (f : XFile) : List (List String × Bucket) :=
  if bks.any (fun p => p.1 = sig) then
    bks.map (fun p =>
      if p.1 = sig then
        (p.1, ⟨p.2.cols, p.2.rows ++ fileRowsScan h sig f, p.2.files ++ [f.name]⟩)
      else p)
  else
    bks ++ [(sig, ⟨sig, fileRowsScan h sig f, [f.name]⟩)]

/-- Standard-mode scan over the file list (lines 1069-1132 with
`is_std = True`): the first successfully read file's signature becomes the
required signature and any later differing signature raises
ColumnMismatchError, modelled by `Except.error ()`. -/
def runStd (h : Nat) (sig0 : Option (List String))
    (bks : List (List String × Bucket)) :
    List XFile → Except Unit (List (List String × Bucket))
  | [] => .ok bks
  | f :: fs =>
    match fileSig h f with
    | Option.none => runStd h sig0 bks fs
    | some sig =>
      match sig0 with
      | Option.none => runStd h (some sig) (addToBuckets h bks sig f) fs
      | some s0 =>
        if sig = s0 then runStd h (some s0) (addToBuckets h bks sig f) fs
        else .error ()

/-! ## Finalize re-read (prompt_table_names and finalize_export) -/

/-- A named bucket as passed to `finalize_export`: the interactive naming
dialog attaches a `header_rows` assignment, the automatic naming path
does not. -/
structure NamedBucket where
  cols : List String
  rows : List (List String)
  files : List String
  header_rows : Option Nat
deriving DecidableEq

/-- Automatic naming of a scanned bucket (lines 1168-1172): the scan bucket
dict is passed through unchanged, so it carries no `header_rows` key. -/
def toNamedAuto (b : Bucket) : NamedBucket := ⟨b.cols, b.rows, b.files, none⟩

/-- Header-row count used by `finalize_export` for one named bucket
(line 1188): `safe_int(data.get("header_rows"), 1)`, so a missing
assignment falls back to 1. -/
def finalizeHCount (d : NamedBucket) : Nat := d.header_rows.getD 1

/-- Column list of the rebuilt table in `finalize_export` (lines 1199-1206):
the headers of the first file whose extraction is non-empty. -/
def rebuiltCols (h : Nat) (files : List XFile) : List String :=
  ((files.filterMap (fun f =>
    let cs := extract_headers f.cells h
    if cs = [] then none else some cs)).head?).getD []

/-- Row list of the rebuilt table in `finalize_export` (lines 1208-1220):
the per-file rows are collected exactly as in the scan but with no
duplicate elimination. -/
def rebuiltRows (h : Nat) (files : List XFile) : List (List String) :=
  (files.map (fun f =>
    let cs := extract_headers f.cells h
    if cs = [] then []
    else ((f.cells.drop h).filter (fun r => r.any Raw.truthy)).map
      (fun r => scanRowData cs r ++ [f.name]))).flatten

/-- A named output table: ordered column list plus rows. -/
structure Table where
  cols : List String
  rows : List (List String)
deriving DecidableEq

/-- The table rebuilt by `finalize_export` for one named bucket's files. -/
def rebuiltTable (h : Nat) (files : List XFile) : Table :=
  ⟨rebuiltCols h files, rebuiltRows h files⟩

/-! ## Sorting helpers (Python `sorted` on strings) -/

/-- Code-point lexicographic order on character lists, the order Python
`sorted` uses on strings. -/
def lexLe : List Char → List Char → Bool
  | [], _ => true
  | _ :: _, [] => false
  | a :: as, b :: bs =>
    if a.toNat < b.toNat then true
    else if b.toNat < a.toNat then false
    else lexLe as bs

/-- String comparison via `lexLe`. -/
def strLe (a b : String) : Bool := lexLe a.data b.data

/-- Insert a string into a sorted list (ascending `strLe`). -/
def insertSorted (s : String) : List String → List String
  | [] => [s]
  | t :: ts => if strLe s t then s :: t :: ts else t :: insertSorted s ts

/-- Insertion sort on strings, modelling Python `sorted`. -/
def sortStrings (l : List String) : List String := l.foldr insertSorted []

/-- Python `sorted(set(l))`: ascending list of the distinct elements. -/
def sortedSet (l : List String) : List String := (sortStrings l).dedup

/-- Stable insertion by string length (earlier elements first among equal
lengths), for Python `list.sort(key=len)`. -/
def insertByLen (s : String) : List String → List String
  | [] => [s]
  | t :: ts => if s.length ≤ t.length then s :: t :: ts else t :: insertByLen s ts

/-- Stable sort by ascending string length. -/
def sortByLen (l : List String) : List String := l.foldr insertByLen []

/-! ## Community (template) mode: sheet reading and the master join -/

/-- Provenance column names appended by `_read_sheet_table`. -/
def srcFileCol : String := "📄 Source File"

/-- Provenance column for the sheet name. -/
def srcSheetCol : String := "🧾 Source Sheet"

/-- Index of the identifier column: first column whose stripped, lowered
name is `"sesa"` (`find_sesa_idx`, modelling -1 by `none`). -/
def findSesaIdx (cols : List String) : Option Nat :=
  cols.findIdx? (fun c => toLowerStr (pyStrip c) = "sesa")

/-- Column list of one community sheet (`_read_sheet_table` lines 767-773):
one header row, right-trimmed of trailing empty or placeholder-only
columns. -/
def sheetCols (cells : List (List Raw)) : List String :=
  let cols := extract_headers cells 1
  let last := cols.enum.foldl
    (fun acc p => if p.2 ≠ "" ∧ ¬("Column_".isPrefixOf p.2) then p.1 + 1 else acc) 0
  if last > 0 then cols.take last else cols

/-- Row collection of `_read_sheet_table` (lines 781-804): skip raw rows with
no truthy cell, clean the cells, drop rows whose identifier cell is empty
after stripping (when an identifier column exists), append file and sheet
provenance, and drop exact duplicates of the full tuple. -/
def readSheetAux (cols : List String) (sesaIdx : Option Nat) (fname sheet : String)
    (seen : List (List String)) : List (List Raw) → List (List String)
  | [] => []
  | r :: rs =>
    if r.any Raw.truthy = false then readSheetAux cols sesaIdx fname sheet seen rs
    else
      let rd := (List.range cols.length).map (fun i => clean_cell_value (r.getD i Raw.none))
      if (match sesaIdx with
          | some si => rd.getD si "" == "" || pyStrip (rd.getD si "") == ""
          | Option.none => false) then
        readSheetAux cols sesaIdx fname sheet seen rs
      else
        let rd2 := rd ++ [fname, sheet]
        if rd2 ∈ seen then readSheetAux cols sesaIdx fname sheet seen rs
        else rd2 :: readSheetAux cols sesaIdx fname sheet (rd2 :: seen) rs

/-- Embedding of `_read_sheet_table` (lines 766-808): returns the column list
with the two provenance columns appended, plus the de-duplicated rows. -/
def read_sheet_table (cells : List (List Raw)) (fname sheet : String) : Table :=
  let cols := sheetCols cells
  ⟨cols ++ [srcFileCol, srcSheetCol],
   readSheetAux cols (findSesaIdx cols) fname sheet [] (cells.drop 1)⟩

/-- Named per-sheet tables, the `tables_by_sheet` dict (insertion order). -/
abbrev Tables := List (String × Table)

/-- Python `tables_by_sheet.get(name)` (sheet names are dict keys, unique). -/
def lookupTable (tables : Tables) (name : String) : Option Table :=
  ((tables : List (String × Table)).find? (fun p => p.1 = name)).map (fun p => p.2)

/-- Sorted distinct non-empty identifier values over every sheet of
`tables_by_sheet` (`build_master_table` lines 819-826).  Note the loop runs
over all sheets, the base sheet included. -/
def allSesa (tables : Tables) : List String :=
  sortedSet ((((tables : List (String × Table)).map (fun p =>
    match findSesaIdx p.2.cols with
    | some si => p.2.rows.map (fun r => pyStrip (r.getD si ""))
    | Option.none => [])).flatten).filter (fun s => s ≠ ""))

/-- Base-sheet row for one identifier (`base_map`, lines 833-836): the last
base row whose stripped identifier cell equals the key, dict-overwrite
semantics. -/
def baseMap (bt : Table) (si : Nat) (s : String) : Option (List String) :=
  (bt.rows.filter (fun r => pyStrip (r.getD si "") = s)).getLast?

/-- Composite entry of one sheet row (lines 853-860): the stripped non-empty
values of the business columns other than the identifier column, joined
with " | ". -/
def aggEntry (bizCols : List String) (si : Nat) (r : List String) : String :=
  joinSep " | " ((List.range bizCols.length).filterMap (fun j =>
    if j = si then none
    else
      let v := r.getD j ""
      if v ≠ "" ∧ pyStrip v ≠ "" then some (pyStrip v) else none))

/-- Aggregated cell of one non-base sheet for one identifier
(lines 851-865): the distinct non-empty composite entries of the rows
sharing that identifier, sorted and joined with "; " (empty when there is
none, matching the dict default). -/
def aggCell (t : Table) (si : Nat) (k : String) : String :=
  let bizCols := t.cols.filter (fun c => c ≠ srcFileCol ∧ c ≠ srcSheetCol)
  joinSep "; " (sortedSet
    ((t.rows.filter (fun r => pyStrip (r.getD si "") = k)).filterMap (fun r =>
      let e := aggEntry bizCols si r
      if e = "" then none else some e)))

/-- Non-base sheets carrying an identifier column, with their aggregate
column name (lines 840-849). -/
def aggSheets (tables : Tables) : List (String × Table × Nat) :=
  (tables : List (String × Table)).filterMap (fun p =>
    if p.1 = "Personal Information" then none
    else (findSesaIdx p.2.cols).map (fun si => (p.1 ++ " - Entries", p.2, si)))

/-- The aggregate column names, in sheet order (`agg_cols`). -/
def aggColsOf (tables : Tables) : List String := (aggSheets tables).map (fun q => q.1)

/-- Lookup `agg_maps.get(c, {}).get(sesa, "")` (line 894). -/
def aggLookup (tables : Tables) (c k : String) : String :=
  match (aggSheets tables).find? (fun q => q.1 = c) with
  | some q => aggCell q.2.1 q.2.2 k
  | Option.none => ""

/-- Base-sheet columns: `base["cols"] if base else ["SESA"]` (line 831). -/
def baseColsOf (tables : Tables) : List String :=
  match lookupTable tables "Personal Information" with
  | some t => t.cols
  | Option.none => ["SESA"]

/-- Final master column list (lines 868-873): base columns with the
identifier inserted first when missing, then each aggregate column that is
not already present. -/
def masterCols (tables : Tables) : List String :=
  (aggColsOf tables).foldl (fun acc c => if c ∈ acc then acc else acc ++ [c])
    (if findSesaIdx (baseColsOf tables) = Option.none
     then "SESA" :: baseColsOf tables else baseColsOf tables)

/-- All-empty starting row with the identifier placed in its column when the
final column list knows one (lines 886-891); the row has the base column
count, so the identifier is prepended when its index falls outside. -/
def emptyMasterRow (tables : Tables) (s : String) : List String :=
  match findSesaIdx (masterCols tables) with
  | some oi =>
    if oi < (baseColsOf tables).length
    then (List.replicate (baseColsOf tables).length "").set oi s
    else s :: List.replicate (baseColsOf tables).length ""
  | Option.none => List.replicate (baseColsOf tables).length ""

/-- Starting row for one identifier (lines 879-891): its base-sheet row
padded to the base column count if one exists, else the all-empty row. -/
def masterRow0 (tables : Tables) (s : String) : List String :=
  match lookupTable tables "Personal Information" with
  | some bt =>
    match findSesaIdx (baseColsOf tables) with
    | some i =>
      match baseMap bt i s with
      | some r => r ++ List.replicate ((baseColsOf tables).length - r.length) ""
      | Option.none => emptyMasterRow tables s
    | Option.none => emptyMasterRow tables s
  | Option.none => emptyMasterRow tables s

/-- Master row for one identifier (lines 879-895): the starting row followed
by one aggregate value per aggregate column. -/
def masterRow (tables : Tables) (s : String) : List String :=
  masterRow0 tables s ++ (aggColsOf tables).map (fun c => aggLookup tables c s)

/-- Embedding of `build_master_table` (lines 810-897). -/
def build_master_table (tables : Tables) : Table :=
  ⟨masterCols tables, (allSesa tables).map (masterRow tables)⟩

/-! ## Entity canonicalizer (run_fuzzy_logic) -/

/-- The alias mapping dict: later assignments shadow earlier ones, so lookup
takes the most recent binding. -/
abbrev AliasMap := List (String × String)

/-- Python `mapping[k]` (latest assignment wins). -/
def mapLookup (m : AliasMap) (k : String) : Option String :=
  ((m : List (String × String)).find? (fun p => p.1 = k)).map (fun p => p.2)

/-- Python `mapping[k] = v`. -/
def mset (m : AliasMap) (k v : String) : AliasMap :=
  ((k, v) :: (m : List (String × String)) : List (String × String))

/-- Python `k in mapping`. -/
def mapContains (m : AliasMap) (k : String) : Bool := (mapLookup m k).isSome

/-- Brand-override test (lines 949 and 964): the lowered value contains
"schneider" or is exactly one of the short forms "se", "s.e.". -/
def isBrand (v : String) : Bool :=
  pyContains (toLowerStr v) "schneider" || toLowerStr v = "se" || toLowerStr v = "s.e."

/-- Canonical brand name the override maps to. -/
def brandCanonical : String := "Schneider Electric"

/-- Inner-loop body of `run_fuzzy_logic` (lines 960-977) for a fixed shorter
value `s` and one longer candidate `l`: skip if already mapped, apply the
brand override, then the prefix rule, then the 0.6 length-ratio floor, and
finally merge exactly when the similarity ratio reaches `thr * 100`.  The
token-order-insensitive similarity (`fuzz.token_sort_ratio`) is an external
library call and is a parameter `ratio`. -/
def innerStep (thr : ℚ) (ratio : String → String → ℚ) (s : String)
    (m : AliasMap) (l : String) : AliasMap :=
  if mapContains m l then m
  else if isBrand l then mset m l brandCanonical
  else if (toLowerStr s).data.isPrefixOf (toLowerStr l).data then mset m l s
  else if ((s.length : ℚ) / (l.length : ℚ) < 3 / 5) then m
  else if ratio (toLowerStr s) (toLowerStr l) ≥ thr * 100 then mset m l s
  else m

/-- Outer loop of `run_fuzzy_logic` (lines 944-977) over the unique values
sorted by length: brand values map to the canonical brand name, remaining
unassigned values of length at least 2 map to themselves and then try to
absorb every longer still-unassigned value via `innerStep`. -/
def buildMapping (thr : ℚ) (ratio : String → String → ℚ) :
    AliasMap → List String → AliasMap
  | m, [] => m
  | m, s :: rest =>
    if isBrand s then buildMapping thr ratio (mset m s brandCanonical) rest
    else if mapContains m s then buildMapping thr ratio m rest
    else if s.length < 2 then buildMapping thr ratio (mset m s s) rest
    else
      let m2 := rest.foldl (innerStep thr ratio s) (mset m s s)
      buildMapping thr ratio m2 rest

/-- Target-column location (lines 922-929): first header containing the
lowered target fragment. -/
def locateCol (target : String) (headers : List String) : Option Nat :=
  headers.findIdx? (fun hd => pyContains (toLowerStr hd) (toLowerStr target))

/-- Embedding of `run_fuzzy_logic` (lines 921-986) as a pure transform: when
the target column exists, build the alias mapping from the distinct
non-empty stripped column values sorted by length, then rewrite every cell
whose stripped value has a different canonical form. -/
def run_fuzzy_logic (ratio : String → String → ℚ) (thr : ℚ) (target : String)
    (headers : List String) (rows : List (List String)) : List (List String) :=
  match locateCol target headers with
  | Option.none => rows
  | some ci =>
    let uniqueVals := sortByLen ((rows.filterMap (fun r =>
      if r.getD ci "" ≠ "" ∧ pyStrip (r.getD ci "") ≠ "" then
        some (pyStrip (r.getD ci "")) else none)).dedup)
    let m := buildMapping thr ratio [] uniqueVals
    rows.map (fun r =>
      let orig := pyStrip (r.getD ci "")
      match mapLookup m orig with
      | some cv => if cv ≠ orig then r.set ci cv else r
      | Option.none => r)

/-! ## Spec-side definitions

These two definitions follow the wording of the specification (not the
code) and are compared against the code-side definitions above. -/

/-- Spec-side: the distinct non-empty identifier values collected across
every non-base sheet, as the spec's join step 1 words it. -/
def sesaAcrossNonBaseSheets (tables : Tables) : List String :=
  sortedSet (((tables.filterMap (fun p =>
    if p.1 = "Personal Information" then none
    else (findSesaIdx p.2.cols).map (fun si =>
      p.2.rows.map (fun r => pyStrip (r.getD si ""))))).flatten).filter
        (fun s => s ≠ ""))

/-- Spec-side aggregate cell, following the spec's words: take every row of
the sheet sharing the identifier, form the composite string joining the
non-empty values of the row's other (non-identifier, non-provenance)
columns with " | ", collect the distinct such composites and join them
with "; " in sorted order. -/
def aggCellSpec (t : Table) (si : Nat) (k : String) : String :=
  let others := t.cols.filter (fun c => c ≠ srcFileCol ∧ c ≠ srcSheetCol)
  joinSep "; " (sortedSet
    ((t.rows.filter (fun r => pyStrip (r.getD si "") = k)).filterMap (fun r =>
      let e := joinSep " | " ((List.range others.length).filterMap (fun j =>
        if j = si then none
        else if r.getD j "" ≠ "" then some (r.getD j "") else none))
      if e = "" then none else some e)))

/-! ## Concrete example data used by counterexamples and witnesses -/

/-- File with headers Name, Role and one data row. -/
def exF1a : XFile := ⟨"a.xlsx", [[.str "Name", .str "Role"], [.str "Ann", .str "Chair"]]⟩

/-- File whose second column is renamed, so its signature differs. -/
def exF1b : XFile := ⟨"b.xlsx", [[.str "Name", .str "Position"], [.str "Bo", .str "Member"]]⟩

/-- Third file with the original signature again. -/
def exF1c : XFile := ⟨"c.xlsx", [[.str "Name", .str "Role"], [.str "Cy", .str "Member"]]⟩

/-- File containing the same data row twice. -/
def exF3 : XFile := ⟨"dup.xlsx", [[.str "A"], [.str "x"], [.str "x"]]⟩

/-- File whose single data row holds only a whitespace cell: the raw row is
truthy, yet every cell normalizes to the empty string. -/
def exF8 : XFile := ⟨"a.xlsx", [[.str "A"], [.str " "]]⟩

/-- File with two header-like rows and one data row, to compare header-row
counts 1 and 2. -/
def exF10 : XFile := ⟨"f.xlsx", [[.str "H1"], [.str "H2"], [.str "x"]]⟩

/-- Template tables whose base sheet holds an identifier that appears in no
non-base sheet. -/
def exTables2 : Tables :=
  [("Personal Information",
    ⟨["SESA", srcFileCol, srcSheetCol], [["S9", "f.xlsx", "Personal Information"]]⟩),
   ("Expertise",
    ⟨["SESA", "Skill", srcFileCol, srcSheetCol], []⟩)]

/-- Template tables with one base row and one topic row for the same
identifier. -/
def exTables9 : Tables :=
  [("Personal Information",
    ⟨["SESA", "Name", srcFileCol, srcSheetCol],
     [["S1", "Ann", "f.xlsx", "Personal Information"]]⟩),
   ("Expertise",
    ⟨["SESA", "Skill", srcFileCol, srcSheetCol],
     [["S1", "IEC 61850", "f.xlsx", "Expertise"]]⟩)]

/-! ## Lemmas on the Python string primitives -/

theorem head?_dropWhile_false {p : Char → Bool} {l : List Char} {c : Char}
    (h : (l.dropWhile p).head? = some c) : p c = false := by
  have := List.head?_dropWhile_not p l
  rw [h] at this
  exact this

theorem getLast?_dropWhile {p : Char → Bool} {l : List Char} {c : Char}
    (h : (l.dropWhile p).getLast? = some c) : l.getLast? = some c := by
  obtain ⟨pre, hpre⟩ := (List.dropWhile_suffix p : List.dropWhile p l <:+ l)
  rw [← hpre, List.getLast?_append, h]
  rfl

theorem stripList_head {l : List Char} {c : Char}
    (h : (stripList l).head? = some c) : pyIsSpace c = false := by
  unfold stripList at h
  rw [List.head?_reverse] at h
  have h2 := getLast?_dropWhile h
  rw [List.getLast?_reverse] at h2
  exact head?_dropWhile_false h2

theorem stripList_last {l : List Char} {c : Char}
    (h : (stripList l).getLast? = some c) : pyIsSpace c = false := by
  unfold stripList at h
  rw [List.getLast?_reverse] at h
  exact head?_dropWhile_false h

theorem stripList_eq_self {l : List Char}
    (h1 : ∀ c, l.head? = some c → pyIsSpace c = false)
    (h2 : ∀ c, l.getLast? = some c → pyIsSpace c = false) :
    stripList l = l := by
  unfold stripList
  have e1 : l.dropWhile pyIsSpace = l := by
    cases l with
    | nil => rfl
    | cons a t =>
      have := h1 a rfl
      simp [List.dropWhile_cons, this]
  rw [e1]
  have e2 : l.reverse.dropWhile pyIsSpace = l.reverse := by
    cases hr : l.reverse with
    | nil => rfl
    | cons a t =>
      have ha : l.getLast? = some a := by
        rw [← List.head?_reverse, hr]
        rfl
      have := h2 a ha
      simp [List.dropWhile_cons, this]
  rw [e2, List.reverse_reverse]

theorem map_eq_self_of {f : Char → Char} {l : List Char}
    (h : ∀ c ∈ l, f c = c) : l.map f = l := by
  rw [show l.map f = l.map id from List.map_congr_left (fun a ha => h a ha), List.map_id]

theorem stripList_eq_self_of_all {l : List Char}
    (h : ∀ c ∈ l, pyIsSpace c = false) : stripList l = l := by
  apply stripList_eq_self
  · intro c hc
    cases l with
    | nil => cases hc
    | cons a t =>
      simp only [List.head?_cons, Option.some.injEq] at hc
      subst hc
      exact h _ (List.mem_cons_self _ _)
  · intro c hc
    apply h
    have hm : c ∈ l.reverse := by
      rw [← List.head?_reverse] at hc
      cases hr : l.reverse with
      | nil => rw [hr] at hc; cases hc
      | cons a t =>
        rw [hr] at hc
        simp only [List.head?_cons, Option.some.injEq] at hc
        subst hc
        exact List.mem_cons_self _ _
    exact List.mem_reverse.mp hm

theorem ne_of_toNat_ne {c c' : Char} (h : c.toNat ≠ c'.toNat) : c ≠ c' :=
  fun he => h (congrArg Char.toNat he)

theorem digitChar_digit (n : Nat) :
    48 ≤ (digitChar n).toNat ∧ (digitChar n).toNat ≤ 57 := by
  unfold digitChar
  split_ifs <;> decide

theorem natDigitsAux_digit :
    ∀ fuel n : Nat, ∀ c ∈ natDigitsAux fuel n, 48 ≤ c.toNat ∧ c.toNat ≤ 57 := by
  intro fuel
  induction fuel with
  | zero => intro n c hc; cases hc
  | succ fuel ih =>
    intro n c hc
    unfold natDigitsAux at hc
    split at hc
    · rcases List.mem_singleton.mp hc with h
      rw [h]
      exact digitChar_digit n
    · rcases List.mem_append.mp hc with h | h
      · exact ih _ c h
      · rcases List.mem_singleton.mp h with h
        rw [h]
        exact digitChar_digit _

theorem natDigitsL_digit {n : Nat} {c : Char} (hc : c ∈ natDigitsL n) :
    48 ≤ c.toNat ∧ c.toNat ≤ 57 :=
  natDigitsAux_digit (n + 1) n c hc

theorem natDigitsL_ne_nil (n : Nat) : natDigitsL n ≠ [] := by
  unfold natDigitsL natDigitsAux
  split
  · exact List.cons_ne_nil _ _
  · simp

theorem padDigits_chars {k : Nat} {l : List Char}
    (hl : ∀ c ∈ l, 48 ≤ c.toNat ∧ c.toNat ≤ 57) :
    ∀ c ∈ padDigits k l, 48 ≤ c.toNat ∧ c.toNat ≤ 57 := by
  intro c hc
  rcases List.mem_append.mp hc with h | h
  · rcases List.eq_of_mem_replicate h with h
    rw [h]
    decide
  · exact hl c h

theorem fmtDateL_chars (y m d : Nat) :
    ∀ c ∈ fmtDateL y m d, (48 ≤ c.toNat ∧ c.toNat ≤ 57) ∨ c = '-' := by
  intro c hc
  unfold fmtDateL at hc
  rcases List.mem_append.mp hc with h | h
  · exact Or.inl (padDigits_chars (fun c hc => natDigitsL_digit hc) c h)
  · rcases List.mem_cons.mp h with h | h
    · exact Or.inr h
    · rcases List.mem_append.mp h with h | h
      · exact Or.inl (padDigits_chars (fun c hc => natDigitsL_digit hc) c h)
      · rcases List.mem_cons.mp h with h | h
        · exact Or.inr h
        · exact Or.inl (padDigits_chars (fun c hc => natDigitsL_digit hc) c h)

theorem digit_or_dash_not_space {c : Char}
    (h : (48 ≤ c.toNat ∧ c.toNat ≤ 57) ∨ c = '-') : pyIsSpace c = false := by
  unfold pyIsSpace
  rcases h with ⟨h1, h2⟩ | h
  · simp only [Bool.or_eq_false_iff, decide_eq_false_iff_not]
    omega
  · rw [h]
    decide

theorem padDigits_ne_nil {k : Nat} {l : List Char} (hl : l ≠ []) :
    padDigits k l ≠ [] := by
  unfold padDigits
  intro h
  rcases List.append_eq_nil.mp h with ⟨_, h2⟩
  exact hl h2

theorem fmtDateL_head_digit (y m d : Nat) :
    ∃ c, (fmtDateL y m d).head? = some c ∧ 48 ≤ c.toNat ∧ c.toNat ≤ 57 := by
  unfold fmtDateL
  cases hp : padDigits 4 (natDigitsL y) with
  | nil => exact absurd hp (padDigits_ne_nil (natDigitsL_ne_nil y))
  | cons a t =>
    refine ⟨a, ?_, ?_⟩
    · simp
    · have ha : a ∈ padDigits 4 (natDigitsL y) := by
        rw [hp]
        exact List.mem_cons_self _ _
      exact padDigits_chars (fun c hc => natDigitsL_digit hc) a ha

theorem fmtDate_not_sentinel (y m d : Nat) :
    ¬(fmtDate y m d = "#VALUE!" ∨ fmtDate y m d = "#REF!" ∨
      fmtDate y m d = "#N/A" ∨ fmtDate y m d = "#DIV/0!") := by
  obtain ⟨c, hc, hd1, hd2⟩ := fmtDateL_head_digit y m d
  have key : ∀ t : String, (t.data.head? = some '#') → ¬(fmtDate y m d = t) := by
    intro t ht he
    have hdata : fmtDateL y m d = t.data := congrArg String.data he
    rw [hdata, ht] at hc
    have : c = '#' := by
      injection hc with h
      exact h.symm
    rw [this] at hd1
    exact absurd hd1 (by decide)
  rintro (h | h | h | h)
  · exact key "#VALUE!" (by decide) h
  · exact key "#REF!" (by decide) h
  · exact key "#N/A" (by decide) h
  · exact key "#DIV/0!" (by decide) h

theorem stripList_idem (l : List Char) : stripList (stripList l) = stripList l := by
  apply stripList_eq_self
  · intro c hc
    exact stripList_head hc
  · intro c hc
    exact stripList_last hc

theorem pyStrip_idem (s : String) : pyStrip (pyStrip s) = pyStrip s := by
  unfold pyStrip
  exact congrArg String.mk (stripList_idem s.data)

theorem transform_fixpoint (s : String) :
    replaceChar '\n' ' ' (replaceChar nbsp ' '
      (pyStrip (replaceChar '\n' ' ' (replaceChar nbsp ' ' (pyStrip s))))) =
    replaceChar '\n' ' ' (replaceChar nbsp ' ' (pyStrip s)) := by
  have hmkdata : ∀ l : List Char, (String.mk l).data = l := fun _ => rfl
  set fA : Char → Char := fun c => if c = nbsp then ' ' else c with hfA
  set fB : Char → Char := fun c => if c = '\n' then ' ' else c with hfB
  set u : List Char := stripList s.data with hu
  set tl : List Char := (u.map fA).map fB with htl
  have hT : replaceChar '\n' ' ' (replaceChar nbsp ' ' (pyStrip s)) = String.mk tl := rfl
  have hfA_ne_nbsp : ∀ x : Char, fA x ≠ nbsp := by
    intro x
    rw [hfA]
    dsimp only
    split
    · decide
    · assumption
  have htl_nbsp : ∀ c ∈ tl, c ≠ nbsp := by
    intro c hc
    rw [htl] at hc
    obtain ⟨y, hy, hyc⟩ := List.mem_map.mp hc
    obtain ⟨x, _, hxy⟩ := List.mem_map.mp hy
    subst hyc
    rw [hfB]
    dsimp only
    split
    · decide
    · rw [← hxy]
      exact hfA_ne_nbsp x
  have htl_nl : ∀ c ∈ tl, c ≠ '\n' := by
    intro c hc
    rw [htl] at hc
    obtain ⟨y, _, hyc⟩ := List.mem_map.mp hc
    subst hyc
    rw [hfB]
    dsimp only
    split
    · decide
    · assumption
  have hedge : ∀ c0 : Char, pyIsSpace c0 = false → fB (fA c0) = c0 := by
    intro c0 hc0
    have h1 : c0 ≠ nbsp := by
      intro h
      rw [h] at hc0
      exact absurd hc0 (by decide)
    have h2 : c0 ≠ '\n' := by
      intro h
      rw [h] at hc0
      exact absurd hc0 (by decide)
    simp [hfA, hfB, h1, h2]
  have hstr : stripList tl = tl := by
    apply stripList_eq_self
    · intro c hc
      rw [htl] at hc
      rw [List.head?_map, List.head?_map] at hc
      cases hu0 : u.head? with
      | none => rw [hu0] at hc; cases hc
      | some c0 =>
        rw [hu0] at hc
        simp only [Option.map_some', Option.some.injEq] at hc
        have hsp : pyIsSpace c0 = false := stripList_head (hu ▸ hu0)
        rw [← hc, hedge c0 hsp]
        exact hsp
    · intro c hc
      rw [htl] at hc
      rw [List.getLast?_map, List.getLast?_map] at hc
      cases hu0 : u.getLast? with
      | none => rw [hu0] at hc; cases hc
      | some c0 =>
        rw [hu0] at hc
        simp only [Option.map_some', Option.some.injEq] at hc
        have hsp : pyIsSpace c0 = false := stripList_last (hu ▸ hu0)
        rw [← hc, hedge c0 hsp]
        exact hsp
  have hmapA : tl.map fA = tl := by
    apply map_eq_self_of
    intro c hc
    have := htl_nbsp c hc
    simp [hfA, this]
  have hmapB : tl.map fB = tl := by
    apply map_eq_self_of
    intro c hc
    have := htl_nl c hc
    simp [hfB, this]
  rw [hT]
  show String.mk (((stripList (String.mk tl).data).map fA).map fB) = String.mk tl
  rw [hmkdata, hstr, hmapA, hmapB]

/-- C7: cell normalization is idempotent — feeding `clean_cell_value`'s
output back in (as the string cell it now is) returns it unchanged. -/
theorem clean_cell_value_idempotent (v : Raw) :
    clean_cell_value (Raw.str (clean_cell_value v)) = clean_cell_value v := by
  have hidem : ∀ s : String, pyCleanStr (pyCleanStr s) = pyCleanStr s := by
    intro s
    unfold pyCleanStr
    by_cases hs :
        replaceChar '\n' ' ' (replaceChar nbsp ' ' (pyStrip s)) = "#VALUE!" ∨
        replaceChar '\n' ' ' (replaceChar nbsp ' ' (pyStrip s)) = "#REF!" ∨
        replaceChar '\n' ' ' (replaceChar nbsp ' ' (pyStrip s)) = "#N/A" ∨
        replaceChar '\n' ' ' (replaceChar nbsp ' ' (pyStrip s)) = "#DIV/0!"
    · simp only [hs, if_pos]
      decide
    · simp only [hs, if_neg, if_false]
      rw [transform_fixpoint s]
      simp only [hs, if_neg, if_false]
  cases v with
  | none =>
    show pyCleanStr "" = ""
    decide
  | str s =>
    exact hidem s
  | int n =>
    exact hidem (intStr n)
  | date y m d =>
    show pyCleanStr (fmtDate y m d) = fmtDate y m d
    have hchars := fmtDateL_chars y m d
    have h1 : stripList (fmtDateL y m d) = fmtDateL y m d :=
      stripList_eq_self_of_all (fun c hc => digit_or_dash_not_space (hchars c hc))
    have h2 : (fmtDateL y m d).map (fun c => if c = nbsp then ' ' else c) =
        fmtDateL y m d := by
      apply map_eq_self_of
      intro c hc
      rw [if_neg]
      apply ne_of_toNat_ne
      rcases hchars c hc with ⟨hl, hr⟩ | h
      · intro he
        rw [show nbsp.toNat = 160 from rfl] at he
        omega
      · rw [h]
        decide
    have h3 : (fmtDateL y m d).map (fun c => if c = '\n' then ' ' else c) =
        fmtDateL y m d := by
      apply map_eq_self_of
      intro c hc
      rw [if_neg]
      apply ne_of_toNat_ne
      rcases hchars c hc with ⟨hl, hr⟩ | h
      · intro he
        rw [show Char.toNat '\n' = 10 from rfl] at he
        omega
      · rw [h]
        decide
    have hT : replaceChar '\n' ' ' (replaceChar nbsp ' ' (pyStrip (fmtDate y m d))) =
        fmtDate y m d := by
      show String.mk (((stripList (fmtDateL y m d)).map
        (fun c => if c = nbsp then ' ' else c)).map
        (fun c => if c = '\n' then ' ' else c)) = fmtDate y m d
      rw [h1, h2, h3]
      rfl
    unfold pyCleanStr
    rw [hT]
    rw [if_neg (fmtDate_not_sentinel y m d)]

/-! ## C3: duplicate elimination differs between scan and finalize -/

/-- C3: the full-tuple dedup promised by the spec holds during the initial
scan, but `finalize_export` (which produces the output tables) re-reads the
files with no dedup at all: for a file containing the same data row twice,
the rebuilt output keeps both identical rows (same cells, same provenance),
while the scan-phase collection of the very same file keeps only one.  This
evaluates the code at the failing input of the code_bug report. -/
theorem finalize_keeps_exact_duplicates :
    rebuiltRows 1 [exF3] = [["x", "dup.xlsx"], ["x", "dup.xlsx"]] ∧
    fileRowsScan 1 (extract_headers exF3.cells 1) exF3 = [["x", "dup.xlsx"]] :=
  ⟨rfl, rfl⟩

/-! ## C8: blank-line discarding -/

/-- C8 counterexample: a sheet row holding one whitespace cell normalizes to
an all-empty data row, yet the scan keeps it — the blank-line check
`if not any(r)` runs on the raw values, not on the normalized cells, so the
claim "a row whose data cells are all empty before provenance annotation is
discarded" fails on this row. -/
theorem whitespace_row_not_discarded :
    scanRowData ["A"] [Raw.str " "] = [""] ∧
    fileRowsScan 1 ["A"] exF8 = [["", "a.xlsx"]] :=
  ⟨rfl, rfl⟩

/-- C8 amended: a sheet row all of whose raw cells are falsy (None, empty
string, zero) is discarded by both row readers — deleting such a row from
the sheet leaves the collected rows unchanged, whatever the dedup state. -/
theorem falsy_raw_rows_discarded (cols : List String) (si : Option Nat)
    (fname sheet : String) (seen : List (List String)) (r : List Raw)
    (hr : r.any Raw.truthy = false) (pre post : List (List Raw)) :
    fileRowsScanAux cols fname seen (pre ++ r :: post) =
      fileRowsScanAux cols fname seen (pre ++ post) ∧
    readSheetAux cols si fname sheet seen (pre ++ r :: post) =
      readSheetAux cols si fname sheet seen (pre ++ post) := by
  constructor
  · induction pre generalizing seen with
    | nil =>
      show fileRowsScanAux cols fname seen (r :: (post : List (List Raw))) =
        fileRowsScanAux cols fname seen post
      rw [fileRowsScanAux, if_pos hr]
    | cons q pre ih =>
      simp only [List.cons_append, fileRowsScanAux]
      split
      · exact ih seen
      · split
        · exact ih seen
        · exact congrArg _ (ih _)
  · induction pre generalizing seen with
    | nil =>
      show readSheetAux cols si fname sheet seen (r :: (post : List (List Raw))) =
        readSheetAux cols si fname sheet seen post
      rw [readSheetAux, if_pos hr]
    | cons q pre ih =>
      simp only [List.cons_append, readSheetAux]
      split
      · exact ih seen
      · split
        · exact ih seen
        · split
          · exact ih seen
          · exact congrArg _ (ih _)

/-- C8 amended witness: a concrete all-falsy row (a `None` cell and a zero
cell) is discarded by both readers. -/
theorem falsy_raw_rows_discarded_witness :
    fileRowsScanAux ["A", "B"] "a.xlsx" []
        ([[Raw.str "x", Raw.str "u"]] ++ [Raw.none, Raw.int 0] :: [[Raw.str "y", Raw.str "v"]]) =
      fileRowsScanAux ["A", "B"] "a.xlsx" []
        ([[Raw.str "x", Raw.str "u"]] ++ [[Raw.str "y", Raw.str "v"]]) ∧
    readSheetAux ["A", "B"] (some 0) "a.xlsx" "S" []
        ([[Raw.str "x", Raw.str "u"]] ++ [Raw.none, Raw.int 0] :: [[Raw.str "y", Raw.str "v"]]) =
      readSheetAux ["A", "B"] (some 0) "a.xlsx" "S" []
        ([[Raw.str "x", Raw.str "u"]] ++ [[Raw.str "y", Raw.str "v"]]) :=
  falsy_raw_rows_discarded ["A", "B"] (some 0) "a.xlsx" "S" [] [Raw.none, Raw.int 0]
    (by decide) [[Raw.str "x", Raw.str "u"]] [[Raw.str "y", Raw.str "v"]]

/-! ## C9: master-table column order -/

/-- C9 counterexample: in the master table built from a standard template
input, the provenance columns (which sit at the end of the base sheet's
column list) come before the aggregate column, contradicting the claim that
every aggregate column precedes every provenance column. -/
theorem provenance_precedes_aggregates :
    (build_master_table exTables9).cols =
      ["SESA", "Name", srcFileCol, srcSheetCol, "Expertise - Entries"] ∧
    (build_master_table exTables9).cols.indexOf srcFileCol <
      (build_master_table exTables9).cols.indexOf "Expertise - Entries" := by
  constructor
  · rfl
  · decide

/-! ## Sorting and master-join lemmas -/

theorem mem_insertSorted {x s : String} {l : List String} :
    x ∈ insertSorted s l ↔ x = s ∨ x ∈ l := by
  induction l with
  | nil => simp [insertSorted]
  | cons t ts ih =>
    unfold insertSorted
    by_cases h : strLe s t = true
    · rw [if_pos h]
      simp [List.mem_cons]
    · rw [if_neg h]
      simp only [List.mem_cons, ih]
      tauto

theorem mem_sortStrings {x : String} {l : List String} : x ∈ sortStrings l ↔ x ∈ l := by
  induction l with
  | nil => simp [sortStrings]
  | cons a l ih =>
    rw [show sortStrings (a :: l) = insertSorted a (sortStrings l) from rfl,
      mem_insertSorted, ih, List.mem_cons]

theorem mem_sortedSet {x : String} {l : List String} : x ∈ sortedSet l ↔ x ∈ l := by
  unfold sortedSet
  rw [List.mem_dedup, mem_sortStrings]

theorem nodup_sortedSet (l : List String) : (sortedSet l).Nodup := List.nodup_dedup _

theorem allSesa_mem_iff (tables : Tables) (x : String) :
    x ∈ allSesa tables ↔
      (x ≠ "" ∧ ∃ p ∈ tables, ∃ si, findSesaIdx p.2.cols = some si ∧
        ∃ r ∈ p.2.rows, pyStrip (r.getD si "") = x) := by
  unfold allSesa
  rw [mem_sortedSet, List.mem_filter]
  constructor
  · rintro ⟨hf, hne⟩
    refine ⟨by simpa using hne, ?_⟩
    rw [List.mem_flatten] at hf
    obtain ⟨sub, hsub, hx⟩ := hf
    rw [List.mem_map] at hsub
    obtain ⟨p, hp, hps⟩ := hsub
    cases hfi : findSesaIdx p.2.cols with
    | none =>
      rw [hfi] at hps
      rw [← hps] at hx
      cases hx
    | some si =>
      rw [hfi] at hps
      rw [← hps, List.mem_map] at hx
      obtain ⟨r, hr, hrx⟩ := hx
      exact ⟨p, hp, si, hfi, r, hr, hrx⟩
  · rintro ⟨hne, p, hp, si, hsi, r, hr, hrx⟩
    refine ⟨?_, by simpa using hne⟩
    rw [List.mem_flatten]
    refine ⟨p.2.rows.map (fun r => pyStrip (r.getD si "")), ?_, ?_⟩
    · rw [List.mem_map]
      exact ⟨p, hp, by rw [hsi]⟩
    · rw [List.mem_map]
      exact ⟨r, hr, hrx⟩

theorem allSesa_strip {tables : Tables} {x : String} (hx : x ∈ allSesa tables) :
    pyStrip x = x ∧ x ≠ "" := by
  rw [allSesa_mem_iff] at hx
  obtain ⟨hne, p, hp, si, hsi, r, hr, hrx⟩ := hx
  exact ⟨by rw [← hrx, pyStrip_idem], hne⟩

theorem foldl_appendIfNew_suffix :
    ∀ (l acc : List String), ∃ suf,
      l.foldl (fun acc c => if c ∈ acc then acc else acc ++ [c]) acc = acc ++ suf := by
  intro l
  induction l with
  | nil => intro acc; exact ⟨[], by simp⟩
  | cons c l ih =>
    intro acc
    simp only [List.foldl_cons]
    by_cases h : c ∈ acc
    · rw [if_pos h]
      exact ih acc
    · rw [if_neg h]
      obtain ⟨suf, hs⟩ := ih (acc ++ [c])
      refine ⟨c :: suf, ?_⟩
      rw [hs, List.append_assoc]
      rfl

theorem foldl_appendIfNew_of_fresh :
    ∀ (l acc : List String), (∀ c ∈ l, c ∉ acc) → l.Nodup →
      l.foldl (fun acc c => if c ∈ acc then acc else acc ++ [c]) acc = acc ++ l := by
  intro l
  induction l with
  | nil => intro acc _ _; simp
  | cons c l ih =>
    intro acc hfresh hnd
    simp only [List.foldl_cons]
    rw [if_neg (hfresh c (List.mem_cons_self _ _))]
    rw [ih (acc ++ [c]) ?_ (List.nodup_cons.mp hnd).2]
    · rw [List.append_assoc]
      rfl
    · intro c' hc' hmem
      rcases List.mem_append.mp hmem with hm | hm
      · exact hfresh c' (List.mem_cons_of_mem _ hc') hm
      · rcases List.mem_singleton.mp hm with rfl
        exact (List.nodup_cons.mp hnd).1 hc'

theorem findIdx?_append_left {α : Type} {p : α → Bool} {l₁ l₂ : List α} {i : Nat}
    (h : l₁.findIdx? p = some i) : (l₁ ++ l₂).findIdx? p = some i := by
  rw [List.findIdx?_append, h]
  rfl

theorem findIdx?_lt_length {α : Type} {p : α → Bool} {l : List α} {i : Nat}
    (h : l.findIdx? p = some i) : i < l.length :=
  (List.findIdx?_eq_some_iff_findIdx_eq.mp h).1

theorem masterCols_base_found {tables : Tables} {j : Nat}
    (hj : findSesaIdx (baseColsOf tables) = some j) :
    findSesaIdx (masterCols tables) = some j ∧ j < (baseColsOf tables).length := by
  have hne : ¬(findSesaIdx (baseColsOf tables) = none) := by rw [hj]; simp
  have hmc : ∃ suf, masterCols tables = baseColsOf tables ++ suf := by
    unfold masterCols
    rw [if_neg hne]
    exact foldl_appendIfNew_suffix _ _
  obtain ⟨suf, hmc⟩ := hmc
  constructor
  · rw [hmc]
    unfold findSesaIdx at hj ⊢
    exact findIdx?_append_left hj
  · exact findIdx?_lt_length hj

theorem masterCols_base_missing {tables : Tables}
    (hj : findSesaIdx (baseColsOf tables) = none) :
    findSesaIdx (masterCols tables) = some 0 := by
  have hmc : ∃ suf, masterCols tables = ("SESA" :: baseColsOf tables) ++ suf := by
    unfold masterCols
    rw [if_pos hj]
    exact foldl_appendIfNew_suffix _ _
  obtain ⟨suf, hmc⟩ := hmc
  rw [hmc]
  unfold findSesaIdx
  apply findIdx?_append_left
  rw [List.findIdx?_cons, if_pos (by decide)]

theorem getD_append_pad (r : List String) (k i : Nat) :
    (r ++ List.replicate k "").getD i "" = r.getD i "" := by
  by_cases h : i < r.length
  · exact List.getD_append _ _ _ _ h
  · rw [List.getD_append_right _ _ _ _ (le_of_not_lt h)]
    have h1 : (List.replicate k ("" : String)).getD (i - r.length) "" = "" := by
      rw [List.getD_eq_getElem?_getD, List.getElem?_replicate]
      split <;> rfl
    have h2 : r.getD i "" = "" := by
      rw [List.getD_eq_getElem?_getD, List.getElem?_eq_none (le_of_not_lt h)]
      rfl
    rw [h1, h2]

theorem getD_set_self (l : List String) (i : Nat) (a : String) (h : i < l.length) :
    (l.set i a).getD i "" = a := by
  rw [List.getD_eq_getElem?_getD, List.getElem?_set_self h]
  rfl

/-! ## C2: one master row per identifier -/

theorem emptyMasterRow_cell (tables : Tables) (s : String) (hs : pyStrip s = s)
    (aggs : List String) (oi : Nat)
    (hoi : findSesaIdx (masterCols tables) = some oi)
    (hbound : oi < (baseColsOf tables).length ∨ oi = 0) :
    pyStrip ((emptyMasterRow tables s ++ aggs).getD oi "") = s := by
  unfold emptyMasterRow
  rw [hoi]
  dsimp only
  by_cases hlt : oi < (baseColsOf tables).length
  · rw [if_pos hlt]
    rw [List.getD_append _ _ _ _ (by simpa using hlt)]
    rw [getD_set_self _ _ _ (by simpa using hlt)]
    exact hs
  · rw [if_neg hlt]
    have h0 : oi = 0 := by
      rcases hbound with h | h
      · exact absurd h hlt
      · exact h
    subst h0
    rw [List.getD_append _ _ _ _ (by simp)]
    exact hs

theorem masterRow_cell (tables : Tables) (s : String) (hs : pyStrip s = s) :
    pyStrip ((masterRow tables s).getD ((findSesaIdx (masterCols tables)).getD 0) "") = s := by
  unfold masterRow
  cases hfi : findSesaIdx (baseColsOf tables) with
  | some j =>
    obtain ⟨hoi, hjlen⟩ := masterCols_base_found hfi
    rw [hoi]
    simp only [Option.getD_some]
    have hempty := emptyMasterRow_cell tables s hs
      ((aggColsOf tables).map (fun c => aggLookup tables c s)) j hoi (Or.inl hjlen)
    cases hb : lookupTable tables "Personal Information" with
    | none =>
      simp only [masterRow0, hb]
      exact hempty
    | some bt =>
      simp only [masterRow0, hb, hfi]
      cases hbm : baseMap bt j s with
      | none =>
        simp only [hbm]
        exact hempty
      | some r =>
        simp only [hbm]
        rw [List.getD_append _ _ _ _ (by
          simp only [List.length_append, List.length_replicate]
          omega)]
        rw [getD_append_pad]
        have hr : r ∈ bt.rows.filter (fun r => pyStrip (r.getD j "") = s) := by
          unfold baseMap at hbm
          exact List.mem_of_getLast?_eq_some hbm
        have := (List.mem_filter.mp hr).2
        exact of_decide_eq_true this
  | none =>
    have hoi := masterCols_base_missing hfi
    rw [hoi]
    simp only [Option.getD_some]
    have hempty := emptyMasterRow_cell tables s hs
      ((aggColsOf tables).map (fun c => aggLookup tables c s)) 0 hoi (Or.inr rfl)
    cases hb : lookupTable tables "Personal Information" with
    | none =>
      simp only [masterRow0, hb]
      exact hempty
    | some bt =>
      simp only [masterRow0, hb, hfi]
      exact hempty

/-- C2 amended: the master table has exactly one row per distinct non-empty
identifier collected across every sheet (the base sheet included) — the
identifier cells of its rows, stripped, enumerate `allSesa` exactly, that
list is duplicate-free, and membership in it is exactly being a non-empty
identifier observed in some sheet. -/
theorem master_one_row_per_identifier (tables : Tables) :
    ((build_master_table tables).rows.map
        (fun r => pyStrip (r.getD ((findSesaIdx (masterCols tables)).getD 0) ""))) =
      allSesa tables ∧
    (allSesa tables).Nodup ∧
    (∀ x, x ∈ allSesa tables ↔
      (x ≠ "" ∧ ∃ p ∈ tables, ∃ si, findSesaIdx p.2.cols = some si ∧
        ∃ r ∈ p.2.rows, pyStrip (r.getD si "") = x)) := by
  refine ⟨?_, by unfold allSesa; exact nodup_sortedSet _, fun x => allSesa_mem_iff tables x⟩
  show ((allSesa tables).map (masterRow tables)).map
    (fun r => pyStrip (r.getD ((findSesaIdx (masterCols tables)).getD 0) "")) = allSesa tables
  rw [List.map_map]
  exact (List.map_congr_left
    (fun x hx => masterRow_cell tables x (allSesa_strip hx).1)).trans (List.map_id _)

/-- C2 counterexample: `build_master_table` collects identifiers over every
sheet, the base sheet included — for an identifier appearing only in the
base sheet the master table still holds a row, although no identifier at
all appears in a non-base sheet, contradicting the claim that rows
correspond to identifiers collected across the non-base sheets. -/
theorem base_only_identifier_gets_row :
    sesaAcrossNonBaseSheets exTables2 = [] ∧
    (build_master_table exTables2).rows =
      [["S9", "f.xlsx", "Personal Information", ""]] :=
  ⟨rfl, rfl⟩

/-! ## C1: strict-mode fail-fast -/

theorem runStd_state_stable (h : Nat) (s0 : List String) :
    ∀ (pre l : List XFile) (bks : List (List String × Bucket)),
      (∀ g ∈ pre, fileSig h g = none ∨ fileSig h g = some s0) →
      ∃ bks', runStd h (some s0) bks (pre ++ l) = runStd h (some s0) bks' l := by
  intro pre
  induction pre with
  | nil => intro l bks _; exact ⟨bks, rfl⟩
  | cons g pre ih =>
    intro l bks hall
    have hall' : ∀ g' ∈ pre, fileSig h g' = none ∨ fileSig h g' = some s0 :=
      fun g' hg' => hall g' (List.mem_cons_of_mem _ hg')
    rcases hall g (List.mem_cons_self _ _) with hg | hg
    · simp only [List.cons_append, runStd, hg]
      exact ih l bks hall'
    · simp only [List.cons_append, runStd, hg, if_true]
      exact ih l (addToBuckets h bks s0 g) hall'

theorem runStd_after_prefix (h : Nat) (s0 : List String) :
    ∀ (pre : List XFile) (bks : List (List String × Bucket)),
      (∀ g ∈ pre, fileSig h g = none ∨ fileSig h g = some s0) →
      (∃ g ∈ pre, fileSig h g = some s0) →
      ∀ l, ∃ bks', runStd h none bks (pre ++ l) = runStd h (some s0) bks' l := by
  intro pre
  induction pre with
  | nil =>
    intro bks _ hex
    rcases hex with ⟨g, hg, _⟩
    cases hg
  | cons g pre ih =>
    intro bks hall hex l
    have hall' : ∀ g' ∈ pre, fileSig h g' = none ∨ fileSig h g' = some s0 :=
      fun g' hg' => hall g' (List.mem_cons_of_mem _ hg')
    rcases hall g (List.mem_cons_self _ _) with hg | hg
    · have hex' : ∃ g' ∈ pre, fileSig h g' = some s0 := by
        rcases hex with ⟨g', hg', hsig⟩
        rcases List.mem_cons.mp hg' with heq | hm
        · rw [heq, hg] at hsig
          cases hsig
        · exact ⟨g', hm, hsig⟩
      simp only [List.cons_append, runStd, hg]
      exact ih bks hall' hex' l
    · simp only [List.cons_append, runStd, hg]
      exact runStd_state_stable h s0 pre l (addToBuckets h bks s0 g) hall'

/-- C1: in standard (strict) mode, once the first successfully read file has
established the required signature `s0`, reaching any file whose signature
is a different `s` makes the whole scan return the ColumnMismatchError
immediately — whatever files follow, they are never processed and no bucket
map (hence no output table) is produced. -/
theorem strict_mode_fail_fast (h : Nat) (s0 s : List String)
    (pre : List XFile) (f : XFile) (rest : List XFile)
    (hpre : ∀ g ∈ pre, fileSig h g = none ∨ fileSig h g = some s0)
    (hex : ∃ g ∈ pre, fileSig h g = some s0)
    (hf : fileSig h f = some s) (hne : s ≠ s0) :
    runStd h none [] (pre ++ f :: rest) = .error () := by
  obtain ⟨bks', heq⟩ := runStd_after_prefix h s0 pre [] hpre hex (f :: rest)
  rw [heq]
  simp only [runStd, hf]
  rw [if_neg hne]

/-- C1 witness: three files where the second renames one column; the
standard-mode scan errors out whatever the third file holds. -/
theorem strict_mode_fail_fast_witness :
    runStd 1 none [] [exF1a, exF1b, exF1c] = .error () :=
  strict_mode_fail_fast 1 ["Name", "Role"] ["Name", "Position"]
    [exF1a] exF1b [exF1c] (by decide) (by decide) (by decide) (by decide)

/-! ## C5 and C6: entity canonicalizer -/

theorem mapLookup_nil (k : String) : mapLookup [] k = none := rfl

theorem mapLookup_mset_self (m : AliasMap) (k v : String) :
    mapLookup (mset m k v) k = some v := by
  unfold mapLookup mset
  rw [List.find?_cons_of_pos]
  · rfl
  · simp

theorem mapLookup_mset_ne (m : AliasMap) (k v x : String) (h : x ≠ k) :
    mapLookup (mset m k v) x = mapLookup m x := by
  unfold mapLookup mset
  rw [List.find?_cons_of_neg]
  simp
  exact fun he => h he.symm

/-- C5: at the fuzzy-comparison site — `l` still unassigned, not a brand
value, not an extension of `s` by prefix, and the 0.6 length-ratio floor
passed — the longer value is mapped to the shorter exactly when the
similarity ratio reaches `threshold * 100`; below that bound it stays
unmapped. -/
theorem fuzzy_threshold_boundary (thr : ℚ) (ratio : String → String → ℚ)
    (s l : String) (m : AliasMap)
    (hassigned : mapContains m l = false)
    (hbrand : isBrand l = false)
    (hpre : (toLowerStr s).data.isPrefixOf (toLowerStr l).data = false)
    (hfloor : ¬((s.length : ℚ) / (l.length : ℚ) < 3 / 5)) :
    (ratio (toLowerStr s) (toLowerStr l) ≥ thr * 100 →
      mapLookup (innerStep thr ratio s m l) l = some s) ∧
    (ratio (toLowerStr s) (toLowerStr l) < thr * 100 →
      mapLookup (innerStep thr ratio s m l) l = none) := by
  unfold innerStep
  rw [if_neg (by rw [hassigned]; exact Bool.false_ne_true)]
  rw [if_neg (by rw [hbrand]; exact Bool.false_ne_true)]
  rw [if_neg (by rw [hpre]; exact Bool.false_ne_true)]
  rw [if_neg hfloor]
  constructor
  · intro hge
    rw [if_pos hge]
    exact mapLookup_mset_self m l s
  · intro hlt
    rw [if_neg (not_le.mpr hlt)]
    unfold mapContains at hassigned
    exact Option.not_isSome_iff_eq_none.mp (by rw [hassigned]; exact Bool.false_ne_true)

/-- C5 witness: with threshold 0.85, a ratio of exactly 85 merges and a
ratio of 84 does not, on values passing all the earlier rules. -/
theorem fuzzy_threshold_boundary_witness :
    mapLookup (innerStep (85 / 100) (fun _ _ => 85) "abcde" [] "bcdefghi") "bcdefghi" =
      some "abcde" ∧
    mapLookup (innerStep (85 / 100) (fun _ _ => 84) "abcde" [] "bcdefghi") "bcdefghi" =
      none := by
  have hlen : ¬((("abcde" : String).length : ℚ) / (("bcdefghi" : String).length : ℚ) < 3 / 5) := by
    have h1 : ("abcde" : String).length = 5 := rfl
    have h2 : ("bcdefghi" : String).length = 8 := rfl
    rw [h1, h2]
    norm_num
  exact ⟨(fuzzy_threshold_boundary (85 / 100) (fun _ _ => 85) "abcde" "bcdefghi" []
            rfl (by decide) (by decide) hlen).1 (by norm_num),
         (fuzzy_threshold_boundary (85 / 100) (fun _ _ => 84) "abcde" "bcdefghi" []
            rfl (by decide) (by decide) hlen).2 (by norm_num)⟩

theorem innerStep_keeps_brand (thr : ℚ) (ratio : String → String → ℚ)
    (s l v : String) (m : AliasMap)
    (hm : mapLookup m v = some brandCanonical) :
    mapLookup (innerStep thr ratio s m l) v = some brandCanonical := by
  by_cases hlv : l = v
  · subst hlv
    unfold innerStep
    rw [if_pos (by unfold mapContains; rw [hm]; rfl)]
    exact hm
  · have hne : v ≠ l := fun he => hlv he.symm
    unfold innerStep
    split_ifs <;>
      first
        | exact hm
        | (rw [mapLookup_mset_ne _ _ _ _ hne]; exact hm)

theorem innerStep_brand_inv (thr : ℚ) (ratio : String → String → ℚ)
    (s l v : String) (m : AliasMap) (hv : isBrand v = true)
    (hm : mapLookup m v = none ∨ mapLookup m v = some brandCanonical) :
    mapLookup (innerStep thr ratio s m l) v = none ∨
      mapLookup (innerStep thr ratio s m l) v = some brandCanonical := by
  by_cases hlv : l = v
  · subst hlv
    unfold innerStep
    by_cases hc : mapContains m l = true
    · rw [if_pos hc]
      exact hm
    · rw [if_neg hc, if_pos (by rw [hv])]
      exact Or.inr (mapLookup_mset_self m l brandCanonical)
  · have hne : v ≠ l := fun he => hlv he.symm
    unfold innerStep
    split_ifs <;>
      first
        | exact hm
        | (rw [mapLookup_mset_ne _ _ _ _ hne]; exact hm)

theorem foldl_innerStep_keeps_brand (thr : ℚ) (ratio : String → String → ℚ)
    (s v : String) :
    ∀ (rest : List String) (m : AliasMap),
      mapLookup m v = some brandCanonical →
      mapLookup (rest.foldl (innerStep thr ratio s) m) v = some brandCanonical := by
  intro rest
  induction rest with
  | nil => intro m hm; exact hm
  | cons l rest ih =>
    intro m hm
    exact ih _ (innerStep_keeps_brand thr ratio s l v m hm)

theorem foldl_innerStep_brand_inv (thr : ℚ) (ratio : String → String → ℚ)
    (s v : String) (hv : isBrand v = true) :
    ∀ (rest : List String) (m : AliasMap),
      (mapLookup m v = none ∨ mapLookup m v = some brandCanonical) →
      (mapLookup (rest.foldl (innerStep thr ratio s) m) v = none ∨
       mapLookup (rest.foldl (innerStep thr ratio s) m) v = some brandCanonical) := by
  intro rest
  induction rest with
  | nil => intro m hm; exact hm
  | cons l rest ih =>
    intro m hm
    exact ih _ (innerStep_brand_inv thr ratio s l v m hv hm)

theorem buildMapping_brand (thr : ℚ) (ratio : String → String → ℚ)
    (v : String) (hv : isBrand v = true) :
    ∀ (vals : List String) (m : AliasMap),
      (mapLookup m v = some brandCanonical ∨ v ∈ vals) →
      (mapLookup m v = none ∨ mapLookup m v = some brandCanonical) →
      mapLookup (buildMapping thr ratio m vals) v = some brandCanonical := by
  intro vals
  induction vals with
  | nil =>
    intro m hor _
    rcases hor with h | h
    · exact h
    · cases h
  | cons s rest ih =>
    intro m hor hinv
    simp only [buildMapping]
    by_cases hs : isBrand s = true
    · rw [if_pos hs]
      by_cases hsv : s = v
      · subst hsv
        exact ih _ (Or.inl (mapLookup_mset_self m s brandCanonical))
          (Or.inr (mapLookup_mset_self m s brandCanonical))
      · have hne : v ≠ s := fun he => hsv he.symm
        apply ih
        · rcases hor with h | h
          · exact Or.inl (by rw [mapLookup_mset_ne _ _ _ _ hne]; exact h)
          · rcases List.mem_cons.mp h with he | hm2
            · exact absurd he.symm hsv
            · exact Or.inr hm2
        · rw [mapLookup_mset_ne _ _ _ _ hne]
          exact hinv
    · have hsv : s ≠ v := fun he => hs (he ▸ hv)
      have hne : v ≠ s := fun he => hsv he.symm
      have hmem : mapLookup m v = some brandCanonical ∨ v ∈ rest := by
        rcases hor with h | h
        · exact Or.inl h
        · rcases List.mem_cons.mp h with he | hm2
          · exact absurd he.symm hsv
          · exact Or.inr hm2
      rw [if_neg hs]
      by_cases hc : mapContains m s = true
      · rw [if_pos hc]
        exact ih m hmem hinv
      · rw [if_neg hc]
        by_cases hlen : s.length < 2
        · rw [if_pos hlen]
          apply ih
          · rcases hmem with h | h
            · exact Or.inl (by rw [mapLookup_mset_ne _ _ _ _ hne]; exact h)
            · exact Or.inr h
          · rw [mapLookup_mset_ne _ _ _ _ hne]
            exact hinv
        · rw [if_neg hlen]
          have hm1 : mapLookup (mset m s s) v = mapLookup m v :=
            mapLookup_mset_ne _ _ _ _ hne
          apply ih
          · rcases hmem with h | h
            · exact Or.inl (foldl_innerStep_keeps_brand thr ratio s v rest _
                (by rw [hm1]; exact h))
            · exact Or.inr h
          · exact foldl_innerStep_brand_inv thr ratio s v hv rest _
              (by rw [hm1]; exact hinv)

/-- C6: every value containing the brand keyword "schneider"
(case-insensitively) or exactly equal to a short form "se"/"s.e." ends up
mapped to "Schneider Electric" by the alias-mapping construction, for every
similarity function and every threshold — so the override is decided before
the prefix rule and fuzzy scoring and takes precedence over them even when
the fuzzy similarity to a shorter candidate would exceed the threshold. -/
theorem brand_override_precedence (thr : ℚ) (ratio : String → String → ℚ)
    (vals : List String) (v : String)
    (hv : isBrand v = true) (hmem : v ∈ vals) :
    mapLookup (buildMapping thr ratio [] vals) v = some brandCanonical :=
  buildMapping_brand thr ratio v hv vals [] (Or.inr hmem) (Or.inl rfl)

/-- C6 witness: "acme schneider ltd" maps to the canonical brand name even
though the supplied similarity function would report 99 against the shorter
unrelated candidate. -/
theorem brand_override_precedence_witness :
    mapLookup (buildMapping (85 / 100) (fun _ _ => 99)
      [] ["ACME Corp", "acme schneider ltd"]) "acme schneider ltd" =
      some "Schneider Electric" :=
  brand_override_precedence (85 / 100) (fun _ _ => 99)
    ["ACME Corp", "acme schneider ltd"] "acme schneider ltd" (by decide)
    (by decide)

/-! ## C9 amended: master column order -/

theorem string_append_right_cancel {a b c : String} (h : a ++ c = b ++ c) : a = b := by
  have hd := congrArg String.data h
  rw [String.data_append, String.data_append] at hd
  exact String.ext (List.append_cancel_right hd)

/-- C9 amended: the master column list is the base sheet's columns (with the
identifier inserted first if missing) followed by the aggregate columns —
and since the base sheet's columns end with the two provenance columns,
every provenance column precedes every aggregate column. -/
theorem master_cols_order (tables : Tables) (bt : Table) (dcols : List String) (i : Nat)
    (hb : lookupTable tables "Personal Information" = some bt)
    (hcols : bt.cols = dcols ++ [srcFileCol, srcSheetCol])
    (hsesa : findSesaIdx dcols = some i)
    (hfresh : ∀ c ∈ aggColsOf tables, c ∉ bt.cols)
    (hnd : (aggColsOf tables).Nodup) :
    (build_master_table tables).cols =
      dcols ++ [srcFileCol, srcSheetCol] ++ aggColsOf tables := by
  have hbase : baseColsOf tables = bt.cols := by
    unfold baseColsOf
    rw [hb]
  have hfind : findSesaIdx (baseColsOf tables) = some i := by
    rw [hbase, hcols]
    unfold findSesaIdx at hsesa ⊢
    exact findIdx?_append_left hsesa
  show masterCols tables = _
  unfold masterCols
  rw [if_neg (by rw [hfind]; simp)]
  rw [foldl_appendIfNew_of_fresh _ _
    (by intro c hc; rw [hbase]; exact hfresh c hc) hnd]
  rw [hbase, hcols]

/-- C9 amended witness: on the concrete template tables the master columns
come out as base data columns, then provenance, then aggregates. -/
theorem master_cols_order_witness :
    (build_master_table exTables9).cols =
      ["SESA", "Name"] ++ [srcFileCol, srcSheetCol] ++ aggColsOf exTables9 :=
  master_cols_order exTables9
    ⟨["SESA", "Name", srcFileCol, srcSheetCol],
     [["S1", "Ann", "f.xlsx", "Personal Information"]]⟩
    ["SESA", "Name"] 0 (by decide) rfl (by decide) (by decide) (by decide)

/-! ## C4: aggregate entries -/

theorem filterMap_congr_mem {α β : Type} {l : List α} {f g : α → Option β}
    (h : ∀ a ∈ l, f a = g a) : l.filterMap f = l.filterMap g :=
  List.filterMap_congr h

theorem mem_foldl_appendIfNew (c : String) :
    ∀ (l acc : List String), c ∈ l ∨ c ∈ acc →
      c ∈ l.foldl (fun acc c => if c ∈ acc then acc else acc ++ [c]) acc := by
  intro l
  induction l with
  | nil =>
    intro acc h
    rcases h with h | h
    · cases h
    · exact h
  | cons d l ih =>
    intro acc h
    simp only [List.foldl_cons]
    by_cases hd : d ∈ acc
    · rw [if_pos hd]
      apply ih
      rcases h with h | h
      · rcases List.mem_cons.mp h with rfl | h
        · exact Or.inr hd
        · exact Or.inl h
      · exact Or.inr h
    · rw [if_neg hd]
      apply ih
      rcases h with h | h
      · rcases List.mem_cons.mp h with rfl | h
        · exact Or.inr (List.mem_append.mpr (Or.inr (List.mem_singleton.mpr rfl)))
        · exact Or.inl h
      · exact Or.inr (List.mem_append.mpr (Or.inl h))

theorem aggSheets_find (tables : Tables) (s : String) (t : Table) (si : Nat)
    (hmem : (s, t) ∈ tables) (hs : s ≠ "Personal Information")
    (hsi : findSesaIdx t.cols = some si)
    (hnd : (tables.map Prod.fst).Nodup) :
    (aggSheets tables).find? (fun q => q.1 = s ++ " - Entries") =
      some (s ++ " - Entries", t, si) := by
  induction tables with
  | nil => cases hmem
  | cons p rest ih =>
    have hnd1 : p.1 ∉ rest.map Prod.fst := (List.nodup_cons.mp hnd).1
    have hnd2 : (rest.map Prod.fst).Nodup := (List.nodup_cons.mp hnd).2
    rcases List.mem_cons.mp hmem with heq | hm
    · have hp : aggSheets (p :: rest) =
          (s ++ " - Entries", t, si) :: aggSheets rest := by
        unfold aggSheets
        rw [List.filterMap_cons, ← heq]
        rw [if_neg hs, hsi]
        rfl
      rw [hp, List.find?_cons_of_pos _ (by simp)]
    · have hps : p.1 ≠ s := by
        intro he
        apply hnd1
        rw [he]
        exact List.mem_map_of_mem Prod.fst hm
    -- the head sheet contributes either nothing or a differently named entry
      have hstep : aggSheets (p :: rest) = aggSheets rest ∨
          ∃ si', aggSheets (p :: rest) =
            (p.1 ++ " - Entries", p.2, si') :: aggSheets rest := by
        unfold aggSheets
        rw [List.filterMap_cons]
        by_cases hpp : p.1 = "Personal Information"
        · rw [if_pos hpp]
          exact Or.inl rfl
        · rw [if_neg hpp]
          cases hfi : findSesaIdx p.2.cols with
          | none => exact Or.inl rfl
          | some si' => exact Or.inr ⟨si', rfl⟩
      rcases hstep with hstep | ⟨si', hstep⟩
      · rw [hstep]
        exact ih hm hnd2
      · rw [hstep, List.find?_cons_of_neg _ (by
          simp only [decide_eq_true_eq]
          intro he
          exact hps (string_append_right_cancel he))]
        exact ih hm hnd2

theorem aggCell_eq_spec (t : Table) (si : Nat) (k : String)
    (hstrip : ∀ r ∈ t.rows, ∀ v ∈ r, pyStrip v = v) :
    aggCell t si k = aggCellSpec t si k := by
  unfold aggCell aggCellSpec
  dsimp only
  congr 1
  congr 1
  apply filterMap_congr_mem
  intro r hr
  have hrow : r ∈ t.rows := List.mem_of_mem_filter hr
  have hentry : aggEntry (t.cols.filter (fun c => c ≠ srcFileCol ∧ c ≠ srcSheetCol)) si r =
      joinSep " | " ((List.range (t.cols.filter
        (fun c => c ≠ srcFileCol ∧ c ≠ srcSheetCol)).length).filterMap (fun j =>
          if j = si then none
          else if r.getD j "" ≠ "" then some (r.getD j "") else none)) := by
    unfold aggEntry
    congr 1
    apply filterMap_congr_mem
    intro j _
    by_cases hj : j = si
    · rw [if_pos hj, if_pos hj]
    · rw [if_neg hj, if_neg hj]
      dsimp only
      by_cases hlen : j < r.length
      · have hv : r.getD j "" ∈ r := by
          rw [List.getD_eq_getElem?_getD, List.getElem?_eq_getElem hlen]
          exact List.getElem_mem _
        have hsv : pyStrip (r.getD j "") = r.getD j "" := hstrip r hrow _ hv
        rw [hsv]
        by_cases hne : r.getD j "" ≠ ""
        · rw [if_pos ⟨hne, hne⟩, if_pos hne]
        · rw [if_neg (by tauto), if_neg hne]
      · have hv : r.getD j "" = "" := by
          rw [List.getD_eq_getElem?_getD, List.getElem?_eq_none (le_of_not_lt hlen)]
          rfl
        rw [hv]
        rw [if_neg (by simp), if_neg (by simp)]
  rw [hentry]

/-- C4: for every non-base sheet carrying an identifier column, the master
table holds a column named `"<SheetName> - Entries"`, and — on normalized
(stripped) cells — the value stored for an identifier is exactly the
spec-side aggregate: the distinct non-empty " | "-composites of the other
non-provenance columns of the rows sharing that identifier, joined with
"; " in sorted order. -/
theorem agg_entries_spec (tables : Tables) (s : String) (t : Table) (si : Nat)
    (hmem : (s, t) ∈ tables) (hs : s ≠ "Personal Information")
    (hsi : findSesaIdx t.cols = some si)
    (hnd : (tables.map Prod.fst).Nodup)
    (hstrip : ∀ r ∈ t.rows, ∀ v ∈ r, pyStrip v = v) (k : String) :
    (s ++ " - Entries") ∈ (build_master_table tables).cols ∧
    aggLookup tables (s ++ " - Entries") k = aggCellSpec t si k := by
  have hagg : (s ++ " - Entries") ∈ aggColsOf tables := by
    unfold aggColsOf aggSheets
    rw [List.mem_map]
    refine ⟨(s ++ " - Entries", t, si), ?_, rfl⟩
    rw [List.mem_filterMap]
    refine ⟨(s, t), hmem, ?_⟩
    rw [if_neg hs, hsi]
    rfl
  constructor
  · show (s ++ " - Entries") ∈ masterCols tables
    unfold masterCols
    exact mem_foldl_appendIfNew _ _ _ (Or.inl hagg)
  · unfold aggLookup
    rw [aggSheets_find tables s t si hmem hs hsi hnd]
    exact aggCell_eq_spec t si k hstrip

/-- C4 witness: on the concrete template tables, the Expertise aggregate
column exists and its stored value for identifier "S1" matches the
spec-side aggregate. -/
theorem agg_entries_spec_witness :
    ("Expertise" ++ " - Entries") ∈ (build_master_table exTables9).cols ∧
    aggLookup exTables9 ("Expertise" ++ " - Entries") "S1" =
      aggCellSpec ⟨["SESA", "Skill", srcFileCol, srcSheetCol],
        [["S1", "IEC 61850", "f.xlsx", "Expertise"]]⟩ 0 "S1" :=
  agg_entries_spec exTables9 "Expertise"
    ⟨["SESA", "Skill", srcFileCol, srcSheetCol],
     [["S1", "IEC 61850", "f.xlsx", "Expertise"]]⟩ 0
    (by decide) (by decide) (by decide) (by decide) (by decide) "S1"

/-! ## C10: finalize header-row count for automatically named buckets -/

/-- C10: the automatic naming path hands the scan bucket over without a
header-row assignment, so `finalize_export` always re-reads with header-row
count 1; for a sheet scanned with header-row count 2 the rebuilt table
differs from the scanned bucket. -/
theorem finalize_uses_headcount_one :
    (∀ b : Bucket, finalizeHCount (toNamedAuto b) = 1) ∧
    rebuiltTable 1 [exF10] ≠
      Table.mk (extract_headers exF10.cells 2)
        (fileRowsScan 2 (extract_headers exF10.cells 2) exF10) := by
  constructor
  · intro b
    rfl
  · decide
